import Mathlib

/-!
# Streaming anomaly-scoring engine: shallow embedding

Embedding of `src/_rrcf.py` (`AnomalyDetector.get_score` and its state) over
rational arithmetic.  The random-cut trees that the Python code obtains from
the external `rrcf` dependency (`rrcf.RCTree`) are not part of the repository's
sources, so they are modelled from the spec's description of `PartitionTree`
(insert, forget, collusive displacement).  All sources of randomness (the
jitter added to a shingle and the random cut choices) are passed in explicitly
as oracle functions, so that every definition is a pure, executable function.
-/

namespace RRCF

/-- Modelled from the spec: a `PartitionTree` node is a tagged variant: a Leaf
owns exactly one point and its PointID; a Branch owns two child nodes, a split
dimension and a split value.  (The spec's cached subtree counts and bounding
boxes are recomputed structurally below, which is extensionally the invariant
the spec states for them.) -/
inductive RNode : Type where
  | leaf (id : ℕ) (point : List ℚ)
  | branch (dim : ℕ) (val : ℚ) (left right : RNode)
deriving DecidableEq

/-- Number of leaves (resident points) of a subtree. -/
def leafCount : RNode → ℕ
  | .leaf _ _ => 1
  | .branch _ _ l r => leafCount l + leafCount r

/-- PointIDs resident in a subtree (the keys of the `leaves` index). -/
def idsOf : RNode → List ℕ
  | .leaf i _ => [i]
  | .branch _ _ l r => idsOf l ++ idsOf r

/-- Smallest resident PointID (`min(tree.leaves.keys())` in the source). -/
def minId : RNode → ℕ
  | .leaf i _ => i
  | .branch _ _ l r => min (minId l) (minId r)

/-- Point stored under a PointID, if resident. -/
def getPoint : RNode → ℕ → Option (List ℚ)
  | .leaf i q, id => if i = id then some q else none
  | .branch _ _ l r, id =>
      match getPoint l id with
      | some q => some q
      | none => getPoint r id

/-- Modelled from the spec: lower edge of the tightest bounding box of a
subtree, on dimension `d`. -/
def boxLo : RNode → ℕ → ℚ
  | .leaf _ q, d => q.getD d 0
  | .branch _ _ l r, d => min (boxLo l d) (boxLo r d)

/-- Modelled from the spec: upper edge of the tightest bounding box of a
subtree, on dimension `d`. -/
def boxHi : RNode → ℕ → ℚ
  | .leaf _ q, d => q.getD d 0
  | .branch _ _ l r, d => max (boxHi l d) (boxHi r d)

/-- Modelled from the spec: `Insert(point, id)` into a non-empty subtree.  At
each node the oracle chooses a split dimension (`cd depth`) and a raw draw
(`cv depth`) that is clamped into the expanded bounding-box range on that
dimension.  If the cut falls outside the existing subtree's box it separates
the new point from the subtree: a new Branch is created here with the new
point as one child and the previous subtree as the other.  Otherwise the walk
descends into the child on the new point's side of the stored partition.  At a
Leaf the existing box is degenerate, so the clamped cut always separates. -/
def insertNode (cd : ℕ → ℕ) (cv : ℕ → ℚ) (p : List ℚ) (id : ℕ) :
    RNode → ℕ → RNode
  | .leaf i q, depth =>
      let d := cd depth
      let pd := p.getD d 0
      let qd := q.getD d 0
      let cut := max (min pd qd) (min (cv depth) (max pd qd))
      if cut ≤ qd then .branch d cut (.leaf id p) (.leaf i q)
      else .branch d cut (.leaf i q) (.leaf id p)
  | .branch bd bv l r, depth =>
      let t := RNode.branch bd bv l r
      let d := cd depth
      let pd := p.getD d 0
      let lo := boxLo t d
      let hi := boxHi t d
      let cut := max (min pd lo) (min (cv depth) (max pd hi))
      if cut ≤ lo then .branch d cut (.leaf id p) t
      else if hi ≤ cut then .branch d cut t (.leaf id p)
      else if pd ≤ bv then .branch bd bv (insertNode cd cv p id l (depth + 1)) r
      else .branch bd bv l (insertNode cd cv p id r (depth + 1))

/-- Modelled from the spec: `Forget(id)`.  Returns `none` when `id` is not
resident (`PointNotFound`); otherwise `some none` when the whole subtree was
the removed Leaf, and `some (some t)` with the Leaf's parent replaced by the
Leaf's sibling otherwise. -/
def forgetNode (id : ℕ) : RNode → Option (Option RNode)
  | .leaf i _ => if i = id then some none else none
  | .branch d v l r =>
      match forgetNode id l with
      | some none => some (some r)
      | some (some l') => some (some (.branch d v l' r))
      | none =>
          match forgetNode id r with
          | some none => some (some l)
          | some (some r') => some (some (.branch d v l r'))
          | none => none

/-- Modelled from the spec: `CollusiveDisplacement(id)`.  Over the path from
the Leaf to the root, at each ancestor Branch the ratio is the point count of
the sibling subtree (the one not containing the target) over the total point
count of the subtree rooted at that Branch; CoDisp is the maximum ratio over
all ancestor levels, and `0` for a sole point with no ancestor Branch (the
spec's stated convention).  Returns `none` when `id` is not resident. -/
def codispNode : RNode → ℕ → Option ℚ
  | .leaf i _, id => if i = id then some 0 else none
  | .branch _ _ l r, id =>
      match codispNode l id with
      | some c => some (max c ((leafCount r : ℚ) / ((leafCount l + leafCount r : ℕ) : ℚ)))
      | none =>
          match codispNode r id with
          | some c => some (max c ((leafCount l : ℚ) / ((leafCount l + leafCount r : ℕ) : ℚ)))
          | none => none

/-! ## A tree as used by the detector: possibly empty -/

/-- A possibly empty `PartitionTree` (`rrcf.RCTree()` starts empty). -/
def leafCountO : Option RNode → ℕ
  | none => 0
  | some t => leafCount t

def idsO : Option RNode → List ℕ
  | none => []
  | some t => idsOf t

/-- The source's `min(tree.leaves.keys())`; total with default `0` on an empty tree (where
the Python source would raise, a situation the detector never reaches since it
only takes the minimum of a tree that is at capacity ≥ 1). -/
def minIdO : Option RNode → ℕ
  | none => 0
  | some t => minId t

def getPointO : Option RNode → ℕ → Option (List ℚ)
  | none, _ => none
  | some t, id => getPoint t id

/-- The source's `tree.forget_point(id)`; total: an absent id leaves the tree unchanged
(the Python source would raise `KeyError`, a situation the detector never
reaches since it only forgets the minimum resident id). -/
def forget_point (id : ℕ) : Option RNode → Option RNode
  | none => none
  | some t =>
      match forgetNode id t with
      | some res => res
      | none => some t

/-- The source's `tree.insert_point(point, index=id)`: a first point becomes the root Leaf,
otherwise the spec's randomized-cut insertion walk runs from the root. -/
def insert_point (cd : ℕ → ℕ) (cv : ℕ → ℚ) (p : List ℚ) (id : ℕ) :
    Option RNode → Option RNode
  | none => some (.leaf id p)
  | some t => some (insertNode cd cv p id t 0)

/-- The source's `tree.codisp(id)`; total with default `0` (the detector only queries the
id it just inserted, which is always resident). -/
def codispO (t : Option RNode) (id : ℕ) : ℚ :=
  match t with
  | none => 0
  | some t => (codispNode t id).getD 0

/-! ## The detector (`src/_rrcf.py`, `AnomalyDetector`) -/

/-- Explicit source of randomness for one `get_score` call, replacing the
global numpy PRNG: the per-dimension jitter draw and, per tree index and walk
depth, the random cut dimension and raw cut draw. -/
structure CallOracle where
  jitter : ℕ → ℚ
  cutDim : ℕ → ℕ → ℕ
  cutVal : ℕ → ℕ → ℚ

/-- The mutable fields of `AnomalyDetector`.  Feature functions are modelled
as functions of the raw chunk and the sampling rate; the source's dispatch on
`__name__` only decides whether `fs` is forwarded, which is absorbed into the
function's own use (or non-use) of its `fs` argument. -/
structure DetectorState where
  feature_functions : List (List ℚ → ℚ → ℚ)
  shingle_size : ℕ
  tree_size : ℕ
  forest : List (Option RNode)
  shingle_buffer : List (List ℚ)
  total_points : ℕ
  mean : Option (List ℚ)
  std : Option (List ℚ)
  alpha : ℚ

/-- The division guard `1e-9` in the z-score. -/
def EPS : ℚ := 1 / 1000000000

/-- The normalizer section of `get_score` (lines 46–56): first call
initializes `mean` to the features and `std` to ones; later calls smooth
`mean` with weight `alpha` and smooth `std` towards `|features - mean|` using
the already-updated mean.  The output is `(features - mean) / (std + 1e-9)`
in both cases (the first call is not special-cased).  Returns
`(mean', std', normalized)`. -/
def normalizerStep (alpha : ℚ) (mean std : Option (List ℚ)) (features : List ℚ) :
    List ℚ × List ℚ × List ℚ :=
  match mean, std with
  | some m, some sd =>
      let mean' := List.zipWith (fun mi fi => (1 - alpha) * mi + alpha * fi) m features
      let dev := List.zipWith (fun fi mi => fi - mi) features mean'
      let std' := List.zipWith (fun si di => (1 - alpha) * si + alpha * |di|) sd dev
      (mean', std', List.zipWith (fun di si => di / (si + EPS)) dev std')
  | _, _ =>
      let mean' := features
      let std' := features.map (fun _ => (1 : ℚ))
      let dev := List.zipWith (fun fi mi => fi - mi) features mean'
      (mean', std', List.zipWith (fun di si => di / (si + EPS)) dev std')

/-- The shingle-buffer update (lines 57–64): append at the end, then drop the
oldest element (the head) when the length exceeds the shingle size. -/
def bufAfterPush (K : ℕ) (buf : List (List ℚ)) (v : List ℚ) : List (List ℚ) :=
  let b := buf ++ [v]
  if K < b.length then b.tail else b

/-- Line 74: add the per-dimension random jitter to the flattened shingle. -/
def addJitter (j : ℕ → ℚ) (l : List ℚ) : List ℚ :=
  List.zipWith (fun x i => x + j i) l (List.range l.length)

/-- One tree's share of the scoring loop (lines 77–89): evict the smallest
resident PointID when the tree is at or above capacity, insert the new point
under id `tp`, and compute its collusive displacement. -/
def treeStep (o : CallOracle) (i : ℕ) (cap tp : ℕ) (shingle : List ℚ)
    (t : Option RNode) : Option RNode × ℚ :=
  let t1 := if cap ≤ leafCountO t then forget_point (minIdO t) t else t
  let t2 := insert_point (o.cutDim i) (o.cutVal i) shingle tp t1
  (t2, codispO t2 tp)

/-- Lines 34–43: the extracted feature vector of a chunk. -/
def featuresOf (s : DetectorState) (data : List ℚ) (fs : ℚ) : List ℚ :=
  s.feature_functions.map (fun f => f data fs)

/-- The normalizer update performed by a call (lines 46–56). -/
def normAt (s : DetectorState) (data : List ℚ) (fs : ℚ) : List ℚ × List ℚ × List ℚ :=
  normalizerStep s.alpha s.mean s.std (featuresOf s data fs)

/-- The shingle buffer after the call's push (lines 57–64). -/
def bufAt (s : DetectorState) (data : List ℚ) (fs : ℚ) : List (List ℚ) :=
  bufAfterPush s.shingle_size s.shingle_buffer (normAt s data fs).2.2

/-- A call produces a shingle iff the buffer reaches the shingle size
(line 67's test fails). -/
def readyAt (s : DetectorState) (data : List ℚ) (fs : ℚ) : Prop :=
  s.shingle_size ≤ (bufAt s data fs).length

instance (s : DetectorState) (data : List ℚ) (fs : ℚ) :
    Decidable (readyAt s data fs) :=
  Nat.decLe _ _

/-- Lines 70–74: the flattened, jittered shingle handed to every tree. -/
def shingleAt (o : CallOracle) (s : DetectorState) (data : List ℚ) (fs : ℚ) : List ℚ :=
  addJitter o.jitter (bufAt s data fs).flatten

/-- Lines 76–89: the per-tree `(updated tree, CoDisp)` results of the scoring
loop, in forest order. -/
def resultsAt (o : CallOracle) (s : DetectorState) (data : List ℚ) (fs : ℚ) :
    List (Option RNode × ℚ) :=
  List.zipWith (fun i t => treeStep o i s.tree_size s.total_points (shingleAt o s data fs) t)
    (List.range s.forest.length) s.forest

/-- The source's `AnomalyDetector.get_score` (lines 33–92): extract features, update the
normalizer, push the normalized vector into the shingle buffer, return `0.0`
while the buffer is still shorter than the shingle size, otherwise flatten
and jitter the shingle, run the eviction/insert/CoDisp loop over the forest,
bump `total_points` and return the mean (`np.mean`, i.e. sum over length) of
the per-tree scores. -/
def get_score (o : CallOracle) (s : DetectorState) (data : List ℚ) (fs : ℚ) :
    DetectorState × ℚ :=
  let ns := normAt s data fs
  let buf := bufAt s data fs
  if buf.length < s.shingle_size then
    ({ s with mean := some ns.1, std := some ns.2.1, shingle_buffer := buf }, 0)
  else
    let results := resultsAt o s data fs
    ({ s with
        mean := some ns.1
        std := some ns.2.1
        shingle_buffer := buf
        forest := results.map Prod.fst
        total_points := s.total_points + 1 },
      (results.map Prod.snd).sum / ((results.map Prod.snd).length : ℚ))

/-- The source's `AnomalyDetector.__init__`: an empty forest of `num_trees` trees, empty
shingle buffer, zero points, unset normalizer state, `alpha = 0.01`. -/
def initDetector (ffs : List (List ℚ → ℚ → ℚ)) (shingle_size num_trees tree_size : ℕ) :
    DetectorState :=
  { feature_functions := ffs
    shingle_size := shingle_size
    tree_size := tree_size
    forest := List.replicate num_trees none
    shingle_buffer := []
    total_points := 0
    mean := none
    std := none
    alpha := 1 / 100 }

/-- Run the detector over a stream of `(chunk, fs)` inputs, threading the
state and collecting the returned scores; `k` indexes the per-call oracle. -/
def runDetector (o : ℕ → CallOracle) : ℕ → DetectorState → List (List ℚ × ℚ) →
    DetectorState × List ℚ
  | _, s, [] => (s, [])
  | k, s, (d, fs) :: rest =>
      let r := get_score (o k) s d fs
      let rest' := runDetector o (k + 1) r.1 rest
      (rest'.1, r.2 :: rest'.2)

/-- The detector state after the first `n` calls of a run (`k` indexes the
per-call oracle, matching `runDetector`). -/
def detStateAt (o : ℕ → CallOracle) : ℕ → DetectorState → List (List ℚ × ℚ) → ℕ →
    DetectorState
  | _, s, _, 0 => s
  | _, s, [], _ + 1 => s
  | k, s, x :: xs, n + 1 => detStateAt o (k + 1) (get_score (o k) s x.1 x.2).1 xs n

/-- Per-tree invariants: every tree holds at most `tree_size` points, and only
PointIDs strictly below the current `total_points` counter. -/
def ForestInv (s : DetectorState) : Prop :=
  ∀ t ∈ s.forest, leafCountO t ≤ s.tree_size ∧ ∀ j ∈ idsO t, j < s.total_points

/-- The id part of the invariant on its own: every resident PointID is
strictly below the `total_points` counter. -/
def IdsInv (s : DetectorState) : Prop :=
  ∀ t ∈ s.forest, ∀ j ∈ idsO t, j < s.total_points

/-! ## Concrete fixtures for witnesses and counterexamples -/

/-- A degenerate randomness source: zero jitter, every cut on dimension 0 at
value 0. -/
def oZero : CallOracle :=
  { jitter := fun _ => 0, cutDim := fun _ _ => 0, cutVal := fun _ _ => 0 }

/-- The degenerate randomness source for a whole run. -/
def oStream : ℕ → CallOracle := fun _ => oZero

/-- One feature function: the (deterministic) sum of the chunk, ignoring the
sampling rate. -/
def ffSum : List (List ℚ → ℚ → ℚ) := [fun data _ => data.sum]

/-! ## Structural lemmas about the tree operations -/

theorem leafCount_insertNode (cd : ℕ → ℕ) (cv : ℕ → ℚ) (p : List ℚ) (id : ℕ)
    (t : RNode) : ∀ depth : ℕ,
    leafCount (insertNode cd cv p id t depth) = leafCount t + 1 := by
  induction t with
  | leaf i q =>
      intro depth
      simp only [insertNode]
      split <;> simp [leafCount]
  | branch bd bv l r ihl ihr =>
      intro depth
      simp only [insertNode]
      split
      · simp [leafCount]; omega
      · split
        · simp [leafCount]
        · split
          · simp [leafCount, ihl]; omega
          · simp [leafCount, ihr]; omega

theorem idsOf_insertNode (cd : ℕ → ℕ) (cv : ℕ → ℚ) (p : List ℚ) (id : ℕ)
    (t : RNode) : ∀ depth : ℕ, ∀ j ∈ idsOf (insertNode cd cv p id t depth),
    j = id ∨ j ∈ idsOf t := by
  induction t with
  | leaf i q =>
      intro depth j hj
      simp only [insertNode] at hj
      split at hj <;> (simp [idsOf] at hj ⊢; tauto)
  | branch bd bv l r ihl ihr =>
      intro depth j hj
      simp only [insertNode] at hj
      split at hj
      · simp [idsOf] at hj ⊢; tauto
      · split at hj
        · simp [idsOf] at hj ⊢; tauto
        · split at hj
          · simp only [idsOf, List.mem_append] at hj ⊢
            rcases hj with hj | hj
            · rcases ihl _ j hj with h | h <;> tauto
            · tauto
          · simp only [idsOf, List.mem_append] at hj ⊢
            rcases hj with hj | hj
            · tauto
            · rcases ihr _ j hj with h | h <;> tauto

theorem getPoint_eq_none (id : ℕ) (t : RNode) (h : id ∉ idsOf t) :
    getPoint t id = none := by
  induction t with
  | leaf i q =>
      simp [idsOf] at h
      simp [getPoint, Ne.symm h]
  | branch bd bv l r ihl ihr =>
      simp only [idsOf, List.mem_append] at h
      push_neg at h
      simp [getPoint, ihl h.1, ihr h.2]

theorem getPoint_insertNode (cd : ℕ → ℕ) (cv : ℕ → ℚ) (p : List ℚ) (id : ℕ)
    (t : RNode) (h : id ∉ idsOf t) : ∀ depth : ℕ,
    getPoint (insertNode cd cv p id t depth) id = some p := by
  induction t with
  | leaf i q =>
      intro depth
      have hi : i ≠ id := by simp [idsOf] at h; exact Ne.symm h
      simp only [insertNode]
      split <;> simp [getPoint, hi]
  | branch bd bv l r ihl ihr =>
      intro depth
      simp only [idsOf, List.mem_append] at h
      push_neg at h
      simp only [insertNode]
      split
      · simp [getPoint]
      · split
        · simp [getPoint, getPoint_eq_none id l h.1, getPoint_eq_none id r h.2]
        · split
          · simp [getPoint, ihl h.1]
          · simp [getPoint, getPoint_eq_none id l h.1, ihr h.2]

theorem minId_mem (t : RNode) : minId t ∈ idsOf t := by
  induction t with
  | leaf i q => simp [minId, idsOf]
  | branch bd bv l r ihl ihr =>
      simp only [minId, idsOf, List.mem_append]
      rcases min_choice (minId l) (minId r) with h | h
      · left; rw [h]; exact ihl
      · right; rw [h]; exact ihr

theorem forgetNode_count (id : ℕ) (t : RNode) :
    ∀ res, forgetNode id t = some res → leafCountO res + 1 = leafCount t := by
  induction t with
  | leaf i q =>
      intro res h
      simp only [forgetNode] at h
      split at h
      · cases h; simp [leafCountO, leafCount]
      · cases h
  | branch bd bv l r ihl ihr =>
      intro res h
      simp only [forgetNode] at h
      cases hl : forgetNode id l with
      | some ol =>
          cases ol with
          | none =>
              rw [hl] at h; cases h
              have := ihl none hl
              simp [leafCountO, leafCount] at this ⊢
              omega
          | some l' =>
              rw [hl] at h; cases h
              have := ihl (some l') hl
              simp [leafCountO, leafCount] at this ⊢
              omega
      | none =>
          rw [hl] at h
          cases hr : forgetNode id r with
          | some orr =>
              cases orr with
              | none =>
                  rw [hr] at h; cases h
                  have := ihr none hr
                  simp [leafCountO, leafCount] at this ⊢
                  omega
              | some r' =>
                  rw [hr] at h; cases h
                  have := ihr (some r') hr
                  simp [leafCountO, leafCount] at this ⊢
                  omega
          | none => rw [hr] at h; cases h

theorem forgetNode_isSome (id : ℕ) (t : RNode) (h : id ∈ idsOf t) :
    ∃ res, forgetNode id t = some res := by
  induction t with
  | leaf i q =>
      simp [idsOf] at h
      exact ⟨none, by simp [forgetNode, h]⟩
  | branch bd bv l r ihl ihr =>
      simp only [idsOf, List.mem_append] at h
      rcases h with h | h
      · obtain ⟨res, hres⟩ := ihl h
        cases res with
        | none => exact ⟨some r, by simp only [forgetNode]; rw [hres]⟩
        | some l' => exact ⟨some (.branch bd bv l' r), by simp only [forgetNode]; rw [hres]⟩
      · cases hl : forgetNode id l with
        | some ol =>
            cases ol with
            | none => exact ⟨some r, by simp only [forgetNode]; rw [hl]⟩
            | some l' => exact ⟨some (.branch bd bv l' r), by simp only [forgetNode]; rw [hl]⟩
        | none =>
            obtain ⟨res, hres⟩ := ihr h
            cases res with
            | none => exact ⟨some l, by simp only [forgetNode]; rw [hl, hres]⟩
            | some r' => exact ⟨some (.branch bd bv l r'), by simp only [forgetNode]; rw [hl, hres]⟩

theorem idsO_forgetNode (id : ℕ) (t : RNode) :
    ∀ res, forgetNode id t = some res → ∀ j ∈ idsO res, j ∈ idsOf t := by
  induction t with
  | leaf i q =>
      intro res h
      simp only [forgetNode] at h
      split at h
      · cases h; simp [idsO]
      · cases h
  | branch bd bv l r ihl ihr =>
      intro res h
      simp only [forgetNode] at h
      cases hl : forgetNode id l with
      | some ol =>
          cases ol with
          | none =>
              rw [hl] at h; cases h
              intro j hj
              simp only [idsO] at hj
              simp [idsOf, hj]
          | some l' =>
              rw [hl] at h; cases h
              intro j hj
              simp only [idsO, idsOf, List.mem_append] at hj ⊢
              rcases hj with hj | hj
              · exact Or.inl (ihl (some l') hl j hj)
              · exact Or.inr hj
      | none =>
          rw [hl] at h
          cases hr : forgetNode id r with
          | some orr =>
              cases orr with
              | none =>
                  rw [hr] at h; cases h
                  intro j hj
                  simp only [idsO] at hj
                  simp [idsOf, hj]
              | some r' =>
                  rw [hr] at h; cases h
                  intro j hj
                  simp only [idsO, idsOf, List.mem_append] at hj ⊢
                  rcases hj with hj | hj
                  · exact Or.inl hj
                  · exact Or.inr (ihr (some r') hr j hj)
          | none => rw [hr] at h; cases h

/-! ## Lemmas about the possibly-empty tree operations -/

theorem leafCountO_insert_point (cd : ℕ → ℕ) (cv : ℕ → ℚ) (p : List ℚ) (id : ℕ)
    (t : Option RNode) :
    leafCountO (insert_point cd cv p id t) = leafCountO t + 1 := by
  cases t with
  | none => simp [insert_point, leafCountO, leafCount]
  | some t => simp [insert_point, leafCountO, leafCount_insertNode]

theorem idsO_insert_point (cd : ℕ → ℕ) (cv : ℕ → ℚ) (p : List ℚ) (id : ℕ)
    (t : Option RNode) : ∀ j ∈ idsO (insert_point cd cv p id t),
    j = id ∨ j ∈ idsO t := by
  cases t with
  | none => intro j hj; simp [insert_point, idsO, idsOf] at hj; exact Or.inl hj
  | some t => intro j hj; exact idsOf_insertNode cd cv p id t 0 j hj

theorem getPointO_insert_point (cd : ℕ → ℕ) (cv : ℕ → ℚ) (p : List ℚ) (id : ℕ)
    (t : Option RNode) (h : id ∉ idsO t) :
    getPointO (insert_point cd cv p id t) id = some p := by
  cases t with
  | none => simp [insert_point, getPointO, getPoint]
  | some t => exact getPoint_insertNode cd cv p id t h 0

theorem idsO_forget_point (id : ℕ) (t : Option RNode) :
    ∀ j ∈ idsO (forget_point id t), j ∈ idsO t := by
  cases t with
  | none => intro j hj; simpa [forget_point] using hj
  | some t =>
      intro j hj
      simp only [forget_point] at hj
      cases hres : forgetNode id t with
      | some res =>
          rw [hres] at hj
          exact idsO_forgetNode id t res hres j hj
      | none => rw [hres] at hj; exact hj

theorem leafCountO_forget_point_min (t : RNode) :
    leafCountO (forget_point (minId t) (some t)) + 1 = leafCount t := by
  obtain ⟨res, hres⟩ := forgetNode_isSome (minId t) t (minId_mem t)
  simp only [forget_point, hres]
  exact forgetNode_count (minId t) t res hres

theorem treeStep_capacity (o : CallOracle) (i cap tp : ℕ) (sh : List ℚ)
    (t : Option RNode) (hcap : 1 ≤ cap) (h : leafCountO t ≤ cap) :
    leafCountO (treeStep o i cap tp sh t).1 ≤ cap := by
  unfold treeStep
  by_cases hfull : cap ≤ leafCountO t
  · simp only [hfull, if_true, leafCountO_insert_point]
    cases t with
    | none => simp [leafCountO] at hfull; omega
    | some t =>
        have := leafCountO_forget_point_min t
        simp only [minIdO]
        simp only [leafCountO] at h hfull
        omega
  · simp only [hfull, if_false, leafCountO_insert_point]
    omega

theorem treeStep_ids (o : CallOracle) (i cap tp : ℕ) (sh : List ℚ)
    (t : Option RNode) (h : ∀ j ∈ idsO t, j < tp) :
    ∀ j ∈ idsO (treeStep o i cap tp sh t).1, j < tp + 1 := by
  unfold treeStep
  intro j hj
  simp only at hj
  rcases idsO_insert_point _ _ _ _ _ j hj with rfl | hj'
  · omega
  · split at hj'
    · exact Nat.lt_succ_of_lt (h j (idsO_forget_point _ _ j hj'))
    · exact Nat.lt_succ_of_lt (h j hj')

theorem treeStep_getPoint (o : CallOracle) (i cap tp : ℕ) (sh : List ℚ)
    (t : Option RNode) (h : ∀ j ∈ idsO t, j < tp) :
    getPointO (treeStep o i cap tp sh t).1 tp = some sh := by
  unfold treeStep
  simp only
  apply getPointO_insert_point
  intro hmem
  split at hmem
  · exact absurd rfl (Nat.ne_of_lt (h tp (idsO_forget_point _ _ tp hmem)))
  · exact absurd rfl (Nat.ne_of_lt (h tp hmem))

theorem treeStep_score (o : CallOracle) (i cap tp : ℕ) (sh : List ℚ)
    (t : Option RNode) :
    (treeStep o i cap tp sh t).2 = codispO (treeStep o i cap tp sh t).1 tp := rfl

/-! ## Branch lemmas for `get_score` -/

theorem get_score_warmup (o : CallOracle) (s : DetectorState) (data : List ℚ)
    (fs : ℚ) (h : ¬ readyAt s data fs) :
    get_score o s data fs =
      ({ s with
          mean := some (normAt s data fs).1
          std := some (normAt s data fs).2.1
          shingle_buffer := bufAt s data fs }, 0) := by
  unfold readyAt at h
  unfold get_score
  rw [if_pos (Nat.lt_of_not_le (fun hle => h hle))]

theorem get_score_ready (o : CallOracle) (s : DetectorState) (data : List ℚ)
    (fs : ℚ) (h : readyAt s data fs) :
    get_score o s data fs =
      ({ s with
          mean := some (normAt s data fs).1
          std := some (normAt s data fs).2.1
          shingle_buffer := bufAt s data fs
          forest := (resultsAt o s data fs).map Prod.fst
          total_points := s.total_points + 1 },
        ((resultsAt o s data fs).map Prod.snd).sum /
          (((resultsAt o s data fs).map Prod.snd).length : ℚ)) := by
  unfold readyAt at h
  unfold get_score
  rw [if_neg (Nat.not_lt_of_le h)]

theorem get_score_buffer (o : CallOracle) (s : DetectorState) (data : List ℚ)
    (fs : ℚ) : (get_score o s data fs).1.shingle_buffer = bufAt s data fs := by
  by_cases h : readyAt s data fs
  · rw [get_score_ready o s data fs h]
  · rw [get_score_warmup o s data fs h]

theorem get_score_config (o : CallOracle) (s : DetectorState) (data : List ℚ)
    (fs : ℚ) :
    (get_score o s data fs).1.feature_functions = s.feature_functions ∧
    (get_score o s data fs).1.shingle_size = s.shingle_size ∧
    (get_score o s data fs).1.tree_size = s.tree_size ∧
    (get_score o s data fs).1.alpha = s.alpha := by
  by_cases h : readyAt s data fs
  · rw [get_score_ready o s data fs h]; exact ⟨rfl, rfl, rfl, rfl⟩
  · rw [get_score_warmup o s data fs h]; exact ⟨rfl, rfl, rfl, rfl⟩

theorem get_score_total_points (o : CallOracle) (s : DetectorState) (data : List ℚ)
    (fs : ℚ) :
    (get_score o s data fs).1.total_points =
      s.total_points + (if readyAt s data fs then 1 else 0) := by
  by_cases h : readyAt s data fs
  · rw [get_score_ready o s data fs h, if_pos h]
  · rw [get_score_warmup o s data fs h, if_neg h]
    rfl

theorem length_bufAfterPush (K : ℕ) (buf : List (List ℚ)) (v : List ℚ)
    (h : buf.length ≤ K) :
    (bufAfterPush K buf v).length = min (buf.length + 1) K := by
  dsimp only [bufAfterPush]
  split <;> rename_i hsplit <;>
    simp only [List.length_tail, List.length_append, List.length_singleton] at hsplit ⊢ <;>
    omega

/-! ## Run-level machinery -/


theorem of_mem_zipWith {α β γ : Type} {f : α → β → γ} :
    ∀ {as : List α} {bs : List β} {c : γ}, c ∈ List.zipWith f as bs →
    ∃ a b, a ∈ as ∧ b ∈ bs ∧ c = f a b := by
  intro as
  induction as with
  | nil => intro bs c h; simp at h
  | cons a as ih =>
      intro bs c h
      cases bs with
      | nil => simp at h
      | cons b bs =>
          simp only [List.zipWith_cons_cons, List.mem_cons] at h
          rcases h with h | h
          · exact ⟨a, b, by simp, by simp, h⟩
          · obtain ⟨a', b', ha, hb, hc⟩ := ih h
            exact ⟨a', b', by simp [ha], by simp [hb], hc⟩

theorem detStateAt_succ (o : ℕ → CallOracle) :
    ∀ (xs : List (List ℚ × ℚ)) (k : ℕ) (s : DetectorState) (n : ℕ), n < xs.length →
    detStateAt o k s xs (n + 1) =
      (get_score (o (k + n)) (detStateAt o k s xs n)
        (xs.getD n ([], 0)).1 (xs.getD n ([], 0)).2).1 := by
  intro xs
  induction xs with
  | nil => intro k s n h; simp at h
  | cons x xs ih =>
      intro k s n h
      cases n with
      | zero => simp [detStateAt]
      | succ m =>
          have hm : m < xs.length := by
            simp only [List.length_cons] at h
            omega
          have h1 : detStateAt o k s (x :: xs) (m + 1 + 1) =
              detStateAt o (k + 1) (get_score (o k) s x.1 x.2).1 xs (m + 1) := rfl
          have h2 : detStateAt o k s (x :: xs) (m + 1) =
              detStateAt o (k + 1) (get_score (o k) s x.1 x.2).1 xs m := rfl
          rw [h1, ih (k + 1) _ m hm, h2]
          have hk : k + 1 + m = k + (m + 1) := by omega
          rw [hk]
          rfl

theorem runDetector_final (o : ℕ → CallOracle) :
    ∀ (xs : List (List ℚ × ℚ)) (k : ℕ) (s : DetectorState),
    (runDetector o k s xs).1 = detStateAt o k s xs xs.length := by
  intro xs
  induction xs with
  | nil => intro k s; rfl
  | cons x xs ih =>
      intro k s
      simp only [runDetector, List.length_cons]
      exact ih (k + 1) _

theorem runDetector_length (o : ℕ → CallOracle) :
    ∀ (xs : List (List ℚ × ℚ)) (k : ℕ) (s : DetectorState),
    (runDetector o k s xs).2.length = xs.length := by
  intro xs
  induction xs with
  | nil => intro k s; rfl
  | cons x xs ih =>
      intro k s
      simp only [runDetector, List.length_cons]
      rw [ih (k + 1)]

theorem runDetector_get (o : ℕ → CallOracle) :
    ∀ (xs : List (List ℚ × ℚ)) (k : ℕ) (s : DetectorState) (n : ℕ), n < xs.length →
    (runDetector o k s xs).2[n]? =
      some (get_score (o (k + n)) (detStateAt o k s xs n)
        (xs.getD n ([], 0)).1 (xs.getD n ([], 0)).2).2 := by
  intro xs
  induction xs with
  | nil => intro k s n h; simp at h
  | cons x xs ih =>
      intro k s n h
      cases n with
      | zero => simp [runDetector, detStateAt]
      | succ m =>
          have hm : m < xs.length := by
            simp only [List.length_cons] at h
            omega
          have h2 : detStateAt o k s (x :: xs) (m + 1) =
              detStateAt o (k + 1) (get_score (o k) s x.1 x.2).1 xs m := rfl
          simp only [runDetector, List.getElem?_cons_succ]
          rw [ih (k + 1) _ m hm, h2]
          have hk : k + 1 + m = k + (m + 1) := by omega
          rw [hk]
          rfl

/-! ## Invariants maintained across calls -/


theorem forestInv_get_score (o : CallOracle) (s : DetectorState) (data : List ℚ)
    (fs : ℚ) (hcap : 1 ≤ s.tree_size) (h : ForestInv s) :
    ForestInv (get_score o s data fs).1 := by
  by_cases hr : readyAt s data fs
  · rw [get_score_ready o s data fs hr]
    intro t ht
    simp only [List.mem_map] at ht
    obtain ⟨r, hrmem, rfl⟩ := ht
    obtain ⟨i, t₀, _, ht₀, rfl⟩ := of_mem_zipWith hrmem
    refine ⟨treeStep_capacity _ _ _ _ _ _ hcap (h t₀ ht₀).1, ?_⟩
    exact treeStep_ids _ _ _ _ _ _ (h t₀ ht₀).2
  · rw [get_score_warmup o s data fs hr]
    exact h

theorem detStateAt_config (o : ℕ → CallOracle) :
    ∀ (xs : List (List ℚ × ℚ)) (k : ℕ) (s : DetectorState) (n : ℕ),
    (detStateAt o k s xs n).shingle_size = s.shingle_size ∧
      (detStateAt o k s xs n).tree_size = s.tree_size := by
  intro xs
  induction xs with
  | nil => intro k s n; cases n <;> exact ⟨rfl, rfl⟩
  | cons x xs ih =>
      intro k s n
      cases n with
      | zero => exact ⟨rfl, rfl⟩
      | succ m =>
          have hc := get_score_config (o k) s x.1 x.2
          have := ih (k + 1) (get_score (o k) s x.1 x.2).1 m
          exact ⟨this.1.trans hc.2.1, this.2.trans hc.2.2.1⟩

theorem forestInv_detStateAt (o : ℕ → CallOracle) :
    ∀ (xs : List (List ℚ × ℚ)) (k : ℕ) (s : DetectorState) (n : ℕ),
    1 ≤ s.tree_size → ForestInv s → ForestInv (detStateAt o k s xs n) := by
  intro xs
  induction xs with
  | nil => intro k s n hcap h; cases n <;> exact h
  | cons x xs ih =>
      intro k s n hcap h
      cases n with
      | zero => exact h
      | succ m =>
          have hc := get_score_config (o k) s x.1 x.2
          exact ih (k + 1) _ m (hc.2.2.1 ▸ hcap) (forestInv_get_score _ _ _ _ hcap h)

theorem get_score_bufLen (o : CallOracle) (s : DetectorState) (data : List ℚ)
    (fs : ℚ) (h : s.shingle_buffer.length ≤ s.shingle_size) :
    (get_score o s data fs).1.shingle_buffer.length =
      min (s.shingle_buffer.length + 1) s.shingle_size := by
  rw [get_score_buffer]
  exact length_bufAfterPush _ _ _ h

theorem bufLen_detStateAt (o : ℕ → CallOracle) :
    ∀ (xs : List (List ℚ × ℚ)) (k : ℕ) (s : DetectorState) (n : ℕ), n ≤ xs.length →
    s.shingle_buffer.length ≤ s.shingle_size →
    (detStateAt o k s xs n).shingle_buffer.length =
      min (s.shingle_buffer.length + n) s.shingle_size := by
  intro xs
  induction xs with
  | nil =>
      intro k s n hn h
      have hn0 : n = 0 := by simpa using hn
      subst hn0
      simp only [detStateAt]
      omega
  | cons x xs ih =>
      intro k s n hn h
      cases n with
      | zero =>
          simp only [detStateAt]
          omega
      | succ m =>
          have hm : m ≤ xs.length := by
            simp only [List.length_cons] at hn
            omega
          have hc := get_score_config (o k) s x.1 x.2
          have hstep := get_score_bufLen (o k) s x.1 x.2 h
          have hlen : (get_score (o k) s x.1 x.2).1.shingle_buffer.length ≤
              (get_score (o k) s x.1 x.2).1.shingle_size := by
            rw [hstep, hc.2.1]
            omega
          have := ih (k + 1) (get_score (o k) s x.1 x.2).1 m hm hlen
          show (detStateAt o (k + 1) (get_score (o k) s x.1 x.2).1 xs m).shingle_buffer.length = _
          rw [this, hstep, hc.2.1]
          omega

theorem bufLen_le_detStateAt (o : ℕ → CallOracle) :
    ∀ (xs : List (List ℚ × ℚ)) (k : ℕ) (s : DetectorState) (n : ℕ),
    s.shingle_buffer.length ≤ s.shingle_size →
    (detStateAt o k s xs n).shingle_buffer.length ≤ s.shingle_size := by
  intro xs
  induction xs with
  | nil => intro k s n h; cases n <;> exact h
  | cons x xs ih =>
      intro k s n h
      cases n with
      | zero => exact h
      | succ m =>
          have hc := get_score_config (o k) s x.1 x.2
          have hstep := get_score_bufLen (o k) s x.1 x.2 h
          have hlen : (get_score (o k) s x.1 x.2).1.shingle_buffer.length ≤
              (get_score (o k) s x.1 x.2).1.shingle_size := by
            rw [hstep, hc.2.1]
            omega
          have := ih (k + 1) (get_score (o k) s x.1 x.2).1 m hlen
          rw [hc.2.1] at this
          exact this

/-- Whether a call at a state of the freshly-initialized run produces a
shingle depends only on the call index: the `n`-th call (0-based) is ready
iff `K ≤ n + 1`. -/
theorem readyAt_init (ffs : List (List ℚ → ℚ → ℚ)) (K nT cap : ℕ)
    (o : ℕ → CallOracle) (xs : List (List ℚ × ℚ)) (n : ℕ) (d : List ℚ) (fs : ℚ)
    (hn : n ≤ xs.length) :
    readyAt (detStateAt o 0 (initDetector ffs K nT cap) xs n) d fs ↔ K ≤ n + 1 := by
  have hlen := bufLen_detStateAt o xs 0 (initDetector ffs K nT cap) n hn
    (by simp [initDetector])
  have hsz := (detStateAt_config o xs 0 (initDetector ffs K nT cap) n).1
  have hle : (detStateAt o 0 (initDetector ffs K nT cap) xs n).shingle_buffer.length ≤
      (detStateAt o 0 (initDetector ffs K nT cap) xs n).shingle_size := by
    rw [hlen, hsz]
    simp only [initDetector, List.length_nil]
    omega
  unfold readyAt bufAt
  rw [length_bufAfterPush _ _ _ hle, hlen, hsz]
  simp only [initDetector, List.length_nil]
  omega

theorem totalPoints_init (ffs : List (List ℚ → ℚ → ℚ)) (K nT cap : ℕ)
    (o : ℕ → CallOracle) (xs : List (List ℚ × ℚ)) (hK : 1 ≤ K) :
    ∀ n, n ≤ xs.length →
    (detStateAt o 0 (initDetector ffs K nT cap) xs n).total_points = n - (K - 1) := by
  intro n
  induction n with
  | zero => intro _; simp [detStateAt, initDetector]
  | succ m ih =>
      intro hn
      have hm : m ≤ xs.length := by omega
      have hmlt : m < xs.length := by omega
      rw [detStateAt_succ o xs 0 _ m hmlt, get_score_total_points, ih hm]
      rw [if_congr (readyAt_init ffs K nT cap o xs m _ _ hm) rfl rfl]
      split <;> omega


theorem idsInv_get_score (o : CallOracle) (s : DetectorState) (data : List ℚ)
    (fs : ℚ) (h : IdsInv s) : IdsInv (get_score o s data fs).1 := by
  by_cases hr : readyAt s data fs
  · rw [get_score_ready o s data fs hr]
    intro t ht
    simp only [List.mem_map] at ht
    obtain ⟨r, hrmem, rfl⟩ := ht
    obtain ⟨i, t₀, _, ht₀, rfl⟩ := of_mem_zipWith hrmem
    exact treeStep_ids _ _ _ _ _ _ (h t₀ ht₀)
  · rw [get_score_warmup o s data fs hr]
    exact h

theorem idsInv_detStateAt (o : ℕ → CallOracle) :
    ∀ (xs : List (List ℚ × ℚ)) (k : ℕ) (s : DetectorState) (n : ℕ),
    IdsInv s → IdsInv (detStateAt o k s xs n) := by
  intro xs
  induction xs with
  | nil => intro k s n h; cases n <;> exact h
  | cons x xs ih =>
      intro k s n h
      cases n with
      | zero => exact h
      | succ m => exact ih (k + 1) _ m (idsInv_get_score _ _ _ _ h)

theorem idsInv_init (ffs : List (List ℚ → ℚ → ℚ)) (K nT cap : ℕ) :
    IdsInv (initDetector ffs K nT cap) := by
  intro t ht
  simp only [initDetector] at ht
  rw [List.eq_of_mem_replicate ht]
  intro j hj
  simp [idsO] at hj

/-- The first normalizer call's output is the all-zero vector: each entry is
`(x - x) / (1 + ε) = 0`. -/
theorem normalizer_first_call_zero (f : List ℚ) :
    List.zipWith (fun di si => di / (si + EPS))
        (List.zipWith (fun fi mi => fi - mi) f f) (f.map fun _ => (1 : ℚ)) =
      f.map fun _ => (0 : ℚ) := by
  induction f with
  | nil => rfl
  | cons x f ih =>
      simp only [List.zipWith_cons_cons, List.map_cons, sub_self, zero_div, ih]


/-! ## The claims -/

/-- C2: for every tree in the ensemble and after any number of scoring calls
on a freshly constructed pipeline, the tree's point count (number of leaves)
never exceeds the configured tree capacity (≥ 1); the eviction of the
smallest resident PointID before insertion (`treeStep`) maintains the bound. -/
theorem C2_capacity_invariant (ffs : List (List ℚ → ℚ → ℚ)) (K nT cap : ℕ)
    (o : ℕ → CallOracle) (xs : List (List ℚ × ℚ)) (hcap : 1 ≤ cap) :
    ∀ t ∈ (runDetector o 0 (initDetector ffs K nT cap) xs).1.forest,
      leafCountO t ≤ cap := by
  rw [runDetector_final]
  intro t ht
  have hinit : ForestInv (initDetector ffs K nT cap) := by
    intro t' ht'
    simp only [initDetector] at ht'
    rw [List.eq_of_mem_replicate ht']
    refine ⟨by simp [leafCountO], ?_⟩
    intro j hj
    simp [idsO] at hj
  have hinv := forestInv_detStateAt o xs 0 (initDetector ffs K nT cap) xs.length
    (by simpa [initDetector] using hcap) hinit
  have h1 := (hinv t ht).1
  rw [(detStateAt_config o xs 0 _ xs.length).2] at h1
  simpa [initDetector] using h1

theorem C2_capacity_invariant_witness :
    1 ≤ 2 ∧ ∀ t ∈ (runDetector oStream 0 (initDetector ffSum 1 1 2)
      [([1], 25000), ([2], 25000), ([3], 25000)]).1.forest, leafCountO t ≤ 2 :=
  ⟨by decide, C2_capacity_invariant ffSum 1 1 2 oStream _ (by decide)⟩

/-- C3: whenever a full shingle is produced, the returned ensemble score
equals the arithmetic mean, over all trees of the (updated) forest, of each
tree's collusive-displacement value computed for the newly inserted point
(whose PointID is the pre-call `total_points`). -/
theorem C3_ensemble_mean (o : CallOracle) (s : DetectorState) (data : List ℚ)
    (fs : ℚ) (h : readyAt s data fs) :
    (get_score o s data fs).2 =
      (((get_score o s data fs).1.forest).map (fun t => codispO t s.total_points)).sum /
        (((get_score o s data fs).1.forest).length : ℚ) := by
  have hmap : ((resultsAt o s data fs).map Prod.fst).map (fun t => codispO t s.total_points) =
      (resultsAt o s data fs).map Prod.snd := by
    rw [List.map_map]
    apply List.map_congr_left
    intro r hr
    obtain ⟨i, t₀, _, _, rfl⟩ := of_mem_zipWith hr
    rfl
  rw [get_score_ready o s data fs h]
  simp only [hmap, List.length_map]

theorem C3_ensemble_mean_witness :
    readyAt (initDetector ffSum 1 2 10) [1] 25000 ∧
    (get_score oZero (initDetector ffSum 1 2 10) [1] 25000).2 =
      (((get_score oZero (initDetector ffSum 1 2 10) [1] 25000).1.forest).map
          (fun t => codispO t (initDetector ffSum 1 2 10).total_points)).sum /
        (((get_score oZero (initDetector ffSum 1 2 10) [1] 25000).1.forest).length : ℚ) :=
  ⟨by decide, C3_ensemble_mean oZero (initDetector ffSum 1 2 10) [1] 25000 (by decide)⟩

/-- C9: two runs of the pipeline over the identical input chunk stream with
the identical random source (the embedding's stand-in for the random seed)
produce the identical sequence of scores. -/
theorem C9_determinism (ffs : List (List ℚ → ℚ → ℚ)) (K nT cap : ℕ)
    (o₁ o₂ : ℕ → CallOracle) (xs₁ xs₂ : List (List ℚ × ℚ))
    (ho : o₁ = o₂) (hx : xs₁ = xs₂) :
    (runDetector o₁ 0 (initDetector ffs K nT cap) xs₁).2 =
      (runDetector o₂ 0 (initDetector ffs K nT cap) xs₂).2 := by
  subst ho hx
  rfl

theorem C9_determinism_witness :
    oStream = oStream ∧
    (runDetector oStream 0 (initDetector ffSum 2 1 5) [([1], 2), ([2], 2)]).2 =
      (runDetector oStream 0 (initDetector ffSum 2 1 5) [([1], 2), ([2], 2)]).2 :=
  ⟨rfl, C9_determinism ffSum 2 1 5 oStream oStream _ _ rfl rfl⟩

/-- C10: a scoring call that returns the not-ready result (buffer still
shorter than the shingle size after the push) nevertheless updates the
normalizer's mean/deviation state and the shingle buffer, while leaving the
PointID counter and every tree of the forest unchanged (and returns `0.0`). -/
theorem C10_warmup_frame (o : CallOracle) (s : DetectorState) (data : List ℚ)
    (fs : ℚ) (h : ¬ readyAt s data fs) :
    (get_score o s data fs).1.forest = s.forest ∧
    (get_score o s data fs).1.total_points = s.total_points ∧
    (get_score o s data fs).1.mean = some (normAt s data fs).1 ∧
    (get_score o s data fs).1.std = some (normAt s data fs).2.1 ∧
    (get_score o s data fs).1.shingle_buffer =
      bufAfterPush s.shingle_size s.shingle_buffer (normAt s data fs).2.2 ∧
    (get_score o s data fs).2 = 0 := by
  rw [get_score_warmup o s data fs h]
  exact ⟨rfl, rfl, rfl, rfl, rfl, rfl⟩

theorem C10_warmup_frame_witness :
    (¬ readyAt (initDetector ffSum 2 1 5) [1] 25000) ∧
    ((get_score oZero (initDetector ffSum 2 1 5) [1] 25000).1.forest =
        (initDetector ffSum 2 1 5).forest ∧
      (get_score oZero (initDetector ffSum 2 1 5) [1] 25000).1.total_points =
        (initDetector ffSum 2 1 5).total_points ∧
      (get_score oZero (initDetector ffSum 2 1 5) [1] 25000).1.mean =
        some (normAt (initDetector ffSum 2 1 5) [1] 25000).1 ∧
      (get_score oZero (initDetector ffSum 2 1 5) [1] 25000).1.std =
        some (normAt (initDetector ffSum 2 1 5) [1] 25000).2.1 ∧
      (get_score oZero (initDetector ffSum 2 1 5) [1] 25000).1.shingle_buffer =
        bufAfterPush (initDetector ffSum 2 1 5).shingle_size
          (initDetector ffSum 2 1 5).shingle_buffer
          (normAt (initDetector ffSum 2 1 5) [1] 25000).2.2 ∧
      (get_score oZero (initDetector ffSum 2 1 5) [1] 25000).2 = 0) :=
  ⟨by decide, C10_warmup_frame oZero (initDetector ffSum 2 1 5) [1] 25000 (by decide)⟩

/-- C1: for a freshly constructed pipeline with shingle size `K ≥ 1`, each of
the first `K−1` calls returns the not-ready result (the source's `0.0`) and
leaves the PointID counter at zero (no score is computed), while every call
from the K-th onward computes a score: the counter advances by exactly one on
each such call. -/
theorem C1_readiness_gating (ffs : List (List ℚ → ℚ → ℚ)) (K nT cap : ℕ)
    (o : ℕ → CallOracle) (xs : List (List ℚ × ℚ)) (hK : 1 ≤ K) :
    ∀ i, i < xs.length →
      (i + 1 < K →
        (runDetector o 0 (initDetector ffs K nT cap) xs).2[i]? = some 0 ∧
        (detStateAt o 0 (initDetector ffs K nT cap) xs (i + 1)).total_points = 0) ∧
      (K ≤ i + 1 →
        (detStateAt o 0 (initDetector ffs K nT cap) xs (i + 1)).total_points =
          (detStateAt o 0 (initDetector ffs K nT cap) xs i).total_points + 1) := by
  intro i hi
  have hi1 : i + 1 ≤ xs.length := hi
  have hii : i ≤ xs.length := le_of_lt hi
  constructor
  · intro hiK
    refine ⟨?_, ?_⟩
    · rw [runDetector_get o xs 0 _ i hi]
      have hnr : ¬ readyAt (detStateAt o 0 (initDetector ffs K nT cap) xs i)
          (xs.getD i ([], 0)).1 (xs.getD i ([], 0)).2 := by
        rw [readyAt_init ffs K nT cap o xs i _ _ hii]
        omega
      rw [get_score_warmup _ _ _ _ hnr]
    · rw [totalPoints_init ffs K nT cap o xs hK (i + 1) hi1]
      omega
  · intro hiK
    rw [totalPoints_init ffs K nT cap o xs hK (i + 1) hi1,
      totalPoints_init ffs K nT cap o xs hK i hii]
    omega

theorem C1_readiness_gating_witness :
    1 ≤ 2 ∧
    ((runDetector oStream 0 (initDetector ffSum 2 1 5) [([1], 2), ([2], 2)]).2[0]? =
        some 0 ∧
      (detStateAt oStream 0 (initDetector ffSum 2 1 5) [([1], 2), ([2], 2)]
        (0 + 1)).total_points = 0) :=
  ⟨by decide,
    (C1_readiness_gating ffSum 2 1 5 oStream [([1], 2), ([2], 2)] (by decide) 0
      (by decide)).1 (by decide)⟩

/-- C5: the PointID counter is monotonically non-decreasing and advances by
exactly one on a call that produces a shingle and by zero on a not-ready
call; and on a shingle-producing call the identical PointID (the pre-call
counter) with the identical jittered shingle point is resident in every tree
of the updated forest. -/
theorem C5_pointid_shared (ffs : List (List ℚ → ℚ → ℚ)) (K nT cap : ℕ)
    (o : ℕ → CallOracle) (xs : List (List ℚ × ℚ)) (i : ℕ) (_hi : i < xs.length) :
    (get_score (o i) (detStateAt o 0 (initDetector ffs K nT cap) xs i)
        (xs.getD i ([], 0)).1 (xs.getD i ([], 0)).2).1.total_points =
      (detStateAt o 0 (initDetector ffs K nT cap) xs i).total_points +
        (if readyAt (detStateAt o 0 (initDetector ffs K nT cap) xs i)
            (xs.getD i ([], 0)).1 (xs.getD i ([], 0)).2 then 1 else 0) ∧
    (readyAt (detStateAt o 0 (initDetector ffs K nT cap) xs i)
        (xs.getD i ([], 0)).1 (xs.getD i ([], 0)).2 →
      ∀ t ∈ (get_score (o i) (detStateAt o 0 (initDetector ffs K nT cap) xs i)
          (xs.getD i ([], 0)).1 (xs.getD i ([], 0)).2).1.forest,
        getPointO t (detStateAt o 0 (initDetector ffs K nT cap) xs i).total_points =
          some (shingleAt (o i) (detStateAt o 0 (initDetector ffs K nT cap) xs i)
            (xs.getD i ([], 0)).1 (xs.getD i ([], 0)).2)) := by
  constructor
  · exact get_score_total_points _ _ _ _
  · intro hr t ht
    rw [get_score_ready _ _ _ _ hr] at ht
    simp only [List.mem_map] at ht
    obtain ⟨r, hrmem, rfl⟩ := ht
    obtain ⟨j, t₀, _, ht₀, rfl⟩ := of_mem_zipWith hrmem
    exact treeStep_getPoint _ _ _ _ _ _
      (idsInv_detStateAt o xs 0 _ i (idsInv_init ffs K nT cap) t₀ ht₀)

theorem C5_pointid_shared_witness :
    0 < ([([1], 2)] : List (List ℚ × ℚ)).length ∧
    ((get_score (oStream 0) (detStateAt oStream 0 (initDetector ffSum 1 2 5) [([1], 2)] 0)
        (([([1], 2)] : List (List ℚ × ℚ)).getD 0 ([], 0)).1
        (([([1], 2)] : List (List ℚ × ℚ)).getD 0 ([], 0)).2).1.total_points =
      (detStateAt oStream 0 (initDetector ffSum 1 2 5) [([1], 2)] 0).total_points +
        (if readyAt (detStateAt oStream 0 (initDetector ffSum 1 2 5) [([1], 2)] 0)
            (([([1], 2)] : List (List ℚ × ℚ)).getD 0 ([], 0)).1
            (([([1], 2)] : List (List ℚ × ℚ)).getD 0 ([], 0)).2 then 1 else 0) ∧
    (readyAt (detStateAt oStream 0 (initDetector ffSum 1 2 5) [([1], 2)] 0)
        (([([1], 2)] : List (List ℚ × ℚ)).getD 0 ([], 0)).1
        (([([1], 2)] : List (List ℚ × ℚ)).getD 0 ([], 0)).2 →
      ∀ t ∈ (get_score (oStream 0) (detStateAt oStream 0 (initDetector ffSum 1 2 5) [([1], 2)] 0)
          (([([1], 2)] : List (List ℚ × ℚ)).getD 0 ([], 0)).1
          (([([1], 2)] : List (List ℚ × ℚ)).getD 0 ([], 0)).2).1.forest,
        getPointO t (detStateAt oStream 0 (initDetector ffSum 1 2 5) [([1], 2)] 0).total_points =
          some (shingleAt (oStream 0) (detStateAt oStream 0 (initDetector ffSum 1 2 5) [([1], 2)] 0)
            (([([1], 2)] : List (List ℚ × ℚ)).getD 0 ([], 0)).1
            (([([1], 2)] : List (List ℚ × ℚ)).getD 0 ([], 0)).2))) :=
  ⟨by decide, C5_pointid_shared ffSum 1 2 5 oStream [([1], 2)] 0 (by decide)⟩

/-- C6: on every scoring call the shingle buffer is appended to at the end
and, if its length then exceeds K, its oldest element (the head) is removed
(FIFO), so its length never exceeds K; and on a shingle-producing call the
point handed to (and resident in) every tree is the concatenation of the K
stored normalized vectors in insertion order, plus the per-dimension random
jitter. -/
theorem C6_buffer_fifo (ffs : List (List ℚ → ℚ → ℚ)) (K nT cap : ℕ)
    (o : ℕ → CallOracle) (xs : List (List ℚ × ℚ)) :
    (∀ n, (detStateAt o 0 (initDetector ffs K nT cap) xs n).shingle_buffer.length ≤ K) ∧
    (∀ i, i < xs.length →
      (get_score (o i) (detStateAt o 0 (initDetector ffs K nT cap) xs i)
          (xs.getD i ([], 0)).1 (xs.getD i ([], 0)).2).1.shingle_buffer =
        (if K < (detStateAt o 0 (initDetector ffs K nT cap) xs i).shingle_buffer.length + 1
          then ((detStateAt o 0 (initDetector ffs K nT cap) xs i).shingle_buffer ++
              [(normAt (detStateAt o 0 (initDetector ffs K nT cap) xs i)
                (xs.getD i ([], 0)).1 (xs.getD i ([], 0)).2).2.2]).tail
          else (detStateAt o 0 (initDetector ffs K nT cap) xs i).shingle_buffer ++
              [(normAt (detStateAt o 0 (initDetector ffs K nT cap) xs i)
                (xs.getD i ([], 0)).1 (xs.getD i ([], 0)).2).2.2]) ∧
      (readyAt (detStateAt o 0 (initDetector ffs K nT cap) xs i)
          (xs.getD i ([], 0)).1 (xs.getD i ([], 0)).2 →
        (get_score (o i) (detStateAt o 0 (initDetector ffs K nT cap) xs i)
            (xs.getD i ([], 0)).1 (xs.getD i ([], 0)).2).1.shingle_buffer.length = K ∧
        ∀ t ∈ (get_score (o i) (detStateAt o 0 (initDetector ffs K nT cap) xs i)
            (xs.getD i ([], 0)).1 (xs.getD i ([], 0)).2).1.forest,
          getPointO t (detStateAt o 0 (initDetector ffs K nT cap) xs i).total_points =
            some (addJitter (o i).jitter
              ((get_score (o i) (detStateAt o 0 (initDetector ffs K nT cap) xs i)
                (xs.getD i ([], 0)).1
                (xs.getD i ([], 0)).2).1.shingle_buffer.flatten)))) := by
  constructor
  · intro n
    have h := bufLen_le_detStateAt o xs 0 (initDetector ffs K nT cap) n
      (by simp [initDetector])
    simpa [initDetector] using h
  · intro i hi
    have hsz : (detStateAt o 0 (initDetector ffs K nT cap) xs i).shingle_size = K :=
      (detStateAt_config o xs 0 _ i).1
    have hlenle : (detStateAt o 0 (initDetector ffs K nT cap) xs i).shingle_buffer.length ≤ K := by
      have h := bufLen_le_detStateAt o xs 0 (initDetector ffs K nT cap) i
        (by simp [initDetector])
      simpa [initDetector] using h
    refine ⟨?_, ?_⟩
    · rw [get_score_buffer]
      dsimp only [bufAt, bufAfterPush]
      rw [hsz]
      simp only [List.length_append, List.length_singleton]
    · intro hr
      constructor
      · rw [get_score_buffer]
        have hlen := length_bufAfterPush (detStateAt o 0 (initDetector ffs K nT cap) xs i).shingle_size
          (detStateAt o 0 (initDetector ffs K nT cap) xs i).shingle_buffer
          (normAt (detStateAt o 0 (initDetector ffs K nT cap) xs i)
            (xs.getD i ([], 0)).1 (xs.getD i ([], 0)).2).2.2
          (by rw [hsz]; exact hlenle)
        unfold readyAt at hr
        show (bufAfterPush _ _ _).length = K
        rw [hlen]
        unfold bufAt at hr
        rw [hlen] at hr
        rw [hsz] at hr ⊢
        omega
      · intro t ht
        rw [get_score_ready _ _ _ _ hr] at ht
        simp only [List.mem_map] at ht
        obtain ⟨r, hrmem, rfl⟩ := ht
        obtain ⟨j, t₀, _, ht₀, rfl⟩ := of_mem_zipWith hrmem
        rw [get_score_buffer]
        exact treeStep_getPoint _ _ _ _ _ _
          (idsInv_detStateAt o xs 0 _ i (idsInv_init ffs K nT cap) t₀ ht₀)

theorem C6_buffer_fifo_witness :
    (0 < ([([1], 2)] : List (List ℚ × ℚ)).length ∧
      readyAt (detStateAt oStream 0 (initDetector ffSum 1 2 5) [([1], 2)] 0)
        (([([1], 2)] : List (List ℚ × ℚ)).getD 0 ([], 0)).1
        (([([1], 2)] : List (List ℚ × ℚ)).getD 0 ([], 0)).2) ∧
    ((get_score (oStream 0) (detStateAt oStream 0 (initDetector ffSum 1 2 5) [([1], 2)] 0)
        (([([1], 2)] : List (List ℚ × ℚ)).getD 0 ([], 0)).1
        (([([1], 2)] : List (List ℚ × ℚ)).getD 0 ([], 0)).2).1.shingle_buffer.length = 1 ∧
      ∀ t ∈ (get_score (oStream 0) (detStateAt oStream 0 (initDetector ffSum 1 2 5) [([1], 2)] 0)
          (([([1], 2)] : List (List ℚ × ℚ)).getD 0 ([], 0)).1
          (([([1], 2)] : List (List ℚ × ℚ)).getD 0 ([], 0)).2).1.forest,
        getPointO t (detStateAt oStream 0 (initDetector ffSum 1 2 5) [([1], 2)] 0).total_points =
          some (addJitter ((oStream 0)).jitter
            ((get_score (oStream 0) (detStateAt oStream 0 (initDetector ffSum 1 2 5) [([1], 2)] 0)
              (([([1], 2)] : List (List ℚ × ℚ)).getD 0 ([], 0)).1
              (([([1], 2)] : List (List ℚ × ℚ)).getD 0 ([], 0)).2).1.shingle_buffer.flatten))) :=
  ⟨⟨by decide, by decide⟩,
    ((C6_buffer_fifo ffSum 1 2 5 oStream [([1], 2)]).2 0 (by decide)).2 (by decide)⟩

theorem getD_zipWith (f : ℚ → ℚ → ℚ) :
    ∀ (as bs : List ℚ) (i : ℕ), i < as.length → i < bs.length →
    (List.zipWith f as bs).getD i 0 = f (as.getD i 0) (bs.getD i 0) := by
  intro as
  induction as with
  | nil => intro bs i h1 _; simp at h1
  | cons a as ih =>
      intro bs i h1 h2
      cases bs with
      | nil => simp at h2
      | cons b bs =>
          cases i with
          | zero => rfl
          | succ j =>
              simp only [List.zipWith_cons_cons, List.getD_cons_succ]
              exact ih bs j (by simpa using h1) (by simpa using h2)

/-- Unfolding of the subsequent-call branch of the normalizer. -/
theorem normalizerStep_some (alpha : ℚ) (m sd f : List ℚ) :
    normalizerStep alpha (some m) (some sd) f =
      (List.zipWith (fun mi fi => (1 - alpha) * mi + alpha * fi) m f,
       List.zipWith (fun si di => (1 - alpha) * si + alpha * |di|) sd
         (List.zipWith (fun fi mi => fi - mi) f
           (List.zipWith (fun mi fi => (1 - alpha) * mi + alpha * fi) m f)),
       List.zipWith (fun di si => di / (si + EPS))
         (List.zipWith (fun fi mi => fi - mi) f
           (List.zipWith (fun mi fi => (1 - alpha) * mi + alpha * fi) m f))
         (List.zipWith (fun si di => (1 - alpha) * si + alpha * |di|) sd
           (List.zipWith (fun fi mi => fi - mi) f
             (List.zipWith (fun mi fi => (1 - alpha) * mi + alpha * fi) m f)))) := rfl

/-- C4: the normalizer's first call sets `mean` to the observed features and
`meanAbsDeviation` to all ones and outputs the all-zero vector via the
generic `(features − mean) / (mAD + ε)` formula; every subsequent call
smooths `mean` with weight α, smooths the deviation using the
already-updated mean, and outputs `(features − mean) / (mAD + ε)` with
`ε = 1e-9`. -/
theorem C4_normalizer (alpha : ℚ) (f m sd : List ℚ)
    (hm : m.length = f.length) (hsd : sd.length = f.length) :
    normalizerStep alpha none none f =
      (f, f.map (fun _ => (1 : ℚ)), f.map (fun _ => (0 : ℚ))) ∧
    (∀ i, i < f.length →
      ((normalizerStep alpha (some m) (some sd) f).1.getD i 0 =
          (1 - alpha) * m.getD i 0 + alpha * f.getD i 0 ∧
        (normalizerStep alpha (some m) (some sd) f).2.1.getD i 0 =
          (1 - alpha) * sd.getD i 0 +
            alpha * |f.getD i 0 - (normalizerStep alpha (some m) (some sd) f).1.getD i 0| ∧
        (normalizerStep alpha (some m) (some sd) f).2.2.getD i 0 =
          (f.getD i 0 - (normalizerStep alpha (some m) (some sd) f).1.getD i 0) /
            ((normalizerStep alpha (some m) (some sd) f).2.1.getD i 0 + 1 / 1000000000))) := by
  constructor
  · show (f, f.map (fun _ => (1 : ℚ)),
        List.zipWith (fun di si => di / (si + EPS))
          (List.zipWith (fun fi mi => fi - mi) f f) (f.map fun _ => (1 : ℚ))) = _
    rw [normalizer_first_call_zero f]
  · intro i hif
    have hmi : i < m.length := by rw [hm]; exact hif
    have hsdi : i < sd.length := by rw [hsd]; exact hif
    have hMlen : (List.zipWith (fun mi fi => (1 - alpha) * mi + alpha * fi) m f).length =
        f.length := by
      rw [List.length_zipWith, hm, Nat.min_self]
    have hDlen : (List.zipWith (fun fi mi => fi - mi) f
        (List.zipWith (fun mi fi => (1 - alpha) * mi + alpha * fi) m f)).length =
        f.length := by
      rw [List.length_zipWith, hMlen, Nat.min_self]
    have hSlen : (List.zipWith (fun si di => (1 - alpha) * si + alpha * |di|) sd
        (List.zipWith (fun fi mi => fi - mi) f
          (List.zipWith (fun mi fi => (1 - alpha) * mi + alpha * fi) m f))).length =
        f.length := by
      rw [List.length_zipWith, hsd, hDlen, Nat.min_self]
    have hM := getD_zipWith (fun mi fi => (1 - alpha) * mi + alpha * fi) m f i hmi hif
    have hD := getD_zipWith (fun fi mi => fi - mi) f
      (List.zipWith (fun mi fi => (1 - alpha) * mi + alpha * fi) m f) i hif
      (by rw [hMlen]; exact hif)
    have hS := getD_zipWith (fun si di => (1 - alpha) * si + alpha * |di|) sd
      (List.zipWith (fun fi mi => fi - mi) f
        (List.zipWith (fun mi fi => (1 - alpha) * mi + alpha * fi) m f)) i hsdi
      (by rw [hDlen]; exact hif)
    have hN := getD_zipWith (fun di si => di / (si + EPS))
      (List.zipWith (fun fi mi => fi - mi) f
        (List.zipWith (fun mi fi => (1 - alpha) * mi + alpha * fi) m f))
      (List.zipWith (fun si di => (1 - alpha) * si + alpha * |di|) sd
        (List.zipWith (fun fi mi => fi - mi) f
          (List.zipWith (fun mi fi => (1 - alpha) * mi + alpha * fi) m f))) i
      (by rw [hDlen]; exact hif) (by rw [hSlen]; exact hif)
    rw [normalizerStep_some]
    refine ⟨hM, ?_, ?_⟩
    · rw [hS, hD, hM]
    · rw [hN, hD, hS, hD, hM]
      simp only [EPS]

theorem C4_normalizer_witness :
    (([(1 : ℚ), 3] : List ℚ).length = ([(2 : ℚ), 5] : List ℚ).length ∧
      ([(1 : ℚ), 3] : List ℚ).length = ([(2 : ℚ), 5] : List ℚ).length) ∧
    normalizerStep (1 / 100) none none [(2 : ℚ), 5] =
      ([(2 : ℚ), 5], ([(2 : ℚ), 5] : List ℚ).map (fun _ => (1 : ℚ)),
        ([(2 : ℚ), 5] : List ℚ).map (fun _ => (0 : ℚ))) ∧
    (normalizerStep (1 / 100) (some [(1 : ℚ), 3]) (some [(1 : ℚ), 3]) [(2 : ℚ), 5]).1.getD 0 0 =
      (1 - 1 / 100) * ([(1 : ℚ), 3] : List ℚ).getD 0 0 +
        (1 / 100) * ([(2 : ℚ), 5] : List ℚ).getD 0 0 :=
  ⟨⟨rfl, rfl⟩,
    (C4_normalizer (1 / 100) [2, 5] [1, 3] [1, 3] rfl rfl).1,
    ((C4_normalizer (1 / 100) [2, 5] [1, 3] [1, 3] rfl rfl).2 0 (by decide)).1⟩

/-- C7 counterexample: the claim says the not-ready result is distinguishable
by the caller from a genuine computed score of zero.  In the source both are
the same plain float `0.0`: the first call of a fresh `K = 2` pipeline
returns `0.0` without computing a score (the PointID counter stays at 0),
while the first call of a fresh `K = 1` pipeline genuinely computes a score
(the counter advances to 1) and that computed score is also `0.0` — the two
return values are equal, so the caller cannot distinguish them. -/
theorem C7_counterexample :
    (get_score oZero (initDetector ffSum 2 1 10) [1] 25000).2 = 0 ∧
    (get_score oZero (initDetector ffSum 2 1 10) [1] 25000).1.total_points = 0 ∧
    (get_score oZero (initDetector ffSum 1 1 10) [1] 25000).2 = 0 ∧
    (get_score oZero (initDetector ffSum 1 1 10) [1] 25000).1.total_points = 1 ∧
    (get_score oZero (initDetector ffSum 2 1 10) [1] 25000).2 =
      (get_score oZero (initDetector ffSum 1 1 10) [1] 25000).2 := by
  have hwarm := get_score_warmup oZero (initDetector ffSum 2 1 10) [1] 25000 (by decide)
  have hready := get_score_ready oZero (initDetector ffSum 1 1 10) [1] 25000 (by decide)
  have hres : (resultsAt oZero (initDetector ffSum 1 1 10) [1] 25000).map Prod.snd =
      [0] := rfl
  have hscore : (get_score oZero (initDetector ffSum 1 1 10) [1] 25000).2 = 0 := by
    rw [hready]
    show ((resultsAt oZero (initDetector ffSum 1 1 10) [1] 25000).map Prod.snd).sum /
        (((resultsAt oZero (initDetector ffSum 1 1 10) [1] 25000).map Prod.snd).length : ℚ) = 0
    rw [hres]
    norm_num
  refine ⟨by rw [hwarm], by rw [hwarm]; rfl, hscore, by rw [hready]; rfl, ?_⟩
  rw [hscore, hwarm]

/-- C7 (amended): the scoring entry point returns a plain float, not a sum
type; during shingle warm-up it returns the value `0.0`, which a genuinely
computed score can also take, so the caller cannot distinguish warm-up from a
computed zero score by the return value alone. -/
theorem C7_amended_warmup_is_zero (o : CallOracle) (s : DetectorState)
    (data : List ℚ) (fs : ℚ) (h : ¬ readyAt s data fs) :
    (get_score o s data fs).2 = 0 := by
  rw [get_score_warmup o s data fs h]

theorem C7_amended_warmup_is_zero_witness :
    (¬ readyAt (initDetector ffSum 2 1 10) [1] 25000) ∧
    (get_score oZero (initDetector ffSum 2 1 10) [1] 25000).2 = 0 :=
  ⟨by decide, C7_amended_warmup_is_zero oZero (initDetector ffSum 2 1 10) [1] 25000 (by decide)⟩

/-- C8 counterexample: the claim says an empty raw chunk yields a typed
`InvalidInput` failure and no score is computed.  The source has no
validation at all: with a fresh `K = 1` pipeline, the empty chunk is fed to
the feature functions, normalized, shingled, and scored — the PointID counter
advances to 1 and a plain score (0) is returned. -/
theorem C8_counterexample :
    (get_score oZero (initDetector ffSum 1 1 10) [] 25000).1.total_points = 1 ∧
    (get_score oZero (initDetector ffSum 1 1 10) [] 25000).2 = 0 ∧
    (get_score oZero (initDetector ffSum 1 1 10) [] 25000).1.shingle_buffer.length = 1 ∧
    (get_score oZero (initDetector ffSum 1 1 10) [] 25000).1.mean = some [0] := by
  have hready := get_score_ready oZero (initDetector ffSum 1 1 10) [] 25000 (by decide)
  have hres : (resultsAt oZero (initDetector ffSum 1 1 10) [] 25000).map Prod.snd =
      [0] := rfl
  refine ⟨by rw [hready]; rfl, ?_, by rw [hready]; rfl, by rw [hready]; rfl⟩
  rw [hready]
  show ((resultsAt oZero (initDetector ffSum 1 1 10) [] 25000).map Prod.snd).sum /
      (((resultsAt oZero (initDetector ffSum 1 1 10) [] 25000).map Prod.snd).length : ℚ) = 0
  rw [hres]
  norm_num

/-- C8 (amended): the pipeline performs no input validation: an empty raw
chunk is passed to the feature functions and processed exactly like any other
chunk — the normalizer state is updated, the normalized vector is pushed into
the shingle buffer, and the PointID counter advances iff the shingle is full;
no `InvalidInput` failure exists in the code. -/
theorem C8_amended_no_validation (o : CallOracle) (s : DetectorState) (fs : ℚ) :
    (get_score o s [] fs).1.shingle_buffer =
      bufAfterPush s.shingle_size s.shingle_buffer (normAt s [] fs).2.2 ∧
    (get_score o s [] fs).1.mean = some (normAt s [] fs).1 ∧
    (get_score o s [] fs).1.std = some (normAt s [] fs).2.1 ∧
    (get_score o s [] fs).1.total_points =
      s.total_points + (if readyAt s [] fs then 1 else 0) := by
  refine ⟨get_score_buffer o s [] fs, ?_, ?_, get_score_total_points o s [] fs⟩ <;>
    by_cases h : readyAt s [] fs
  · rw [get_score_ready o s [] fs h]
  · rw [get_score_warmup o s [] fs h]
  · rw [get_score_ready o s [] fs h]
  · rw [get_score_warmup o s [] fs h]

end RRCF
